import Mathlib

/-!
Verification of the easy-config repository (src/config.py) against its
natural-language specification.

The embedding models YAML trees as the recursive value type produced by
`yaml.safe_load`: mappings (insertion-ordered association lists, as Python
dicts), sequences, strings, floats, integers, and null (`None`).  Mappings
and sequences are given by mutually inductive list types so that every
function below is structurally recursive and evaluates by kernel reduction.
-/

namespace EasyConfig

mutual

/-- A parsed YAML value, as produced by `yaml.safe_load` in `Config._read_config`. -/
inductive Yaml where
  | null : Yaml
  | str (s : String) : Yaml
  | float (q : Rat) : Yaml
  | int (n : Int) : Yaml
  | seq (items : YList) : Yaml
  | map (entries : YEntries) : Yaml
  deriving DecidableEq

/-- The items of a YAML sequence. -/
inductive YList where
  | nil : YList
  | cons (v : Yaml) (rest : YList) : YList
  deriving DecidableEq

/-- The entries of a YAML mapping: an insertion-ordered association list,
modelling a Python `dict`. -/
inductive YEntries where
  | nil : YEntries
  | cons (k : String) (v : Yaml) (rest : YEntries) : YEntries
  deriving DecidableEq

end

/-- Membership test `k in d` for a Python dict. -/
def keyMem (k : String) : YEntries → Bool
  | .nil => false
  | .cons k' _ rest => if k' = k then true else keyMem k rest

/-- Subscript `d[k]` for a Python dict, as an `Option` (first matching entry). -/
def dictLookup : YEntries → String → Option Yaml
  | .nil, _ => none
  | .cons k' v rest, k => if k' = k then some v else dictLookup rest k

/-- Assignment `d[k] = v` for a Python dict: replace the value at the first entry with
key `k`, or append a new entry when the key is absent. -/
def dictSet : YEntries → String → Yaml → YEntries
  | .nil, k, v => .cons k v .nil
  | .cons k' v' rest, k, v =>
      if k' = k then .cons k' v rest else .cons k' v' (dictSet rest k v)

/-- The list of keys of a mapping, in order. -/
def keysOf : YEntries → List String
  | .nil => []
  | .cons k _ rest => k :: keysOf rest

/-- Keys of a mapping are pairwise distinct (always true of Python dicts). -/
def keysNodup : YEntries → Bool
  | .nil => true
  | .cons k _ rest => !keyMem k rest && keysNodup rest

mutual

/-- Every mapping anywhere in the value has pairwise distinct keys.  This
invariant holds of every value `yaml.safe_load` can return, since Python
dicts cannot carry duplicate keys. -/
def wf : Yaml → Bool
  | .map es => keysNodup es && wfEntries es
  | _ => true

/-- Well-formedness `wf` of each value of a mapping. -/
def wfEntries : YEntries → Bool
  | .nil => true
  | .cons _ v rest => wf v && wfEntries rest

end

/-- The test `isinstance(v, dict)`. -/
def isMap : Yaml → Bool
  | .map _ => true
  | _ => false

/-- The Python runtime type of a value, as the `type(...)` kinds distinguished
by `Config._update_config`'s `type(default_cfg) != type(local_cfg)` test. -/
inductive Kind where
  | null | str | float | int | seq | map
  deriving DecidableEq

/-- The kind of a value (its Python `type`). -/
def kindOf : Yaml → Kind
  | .null => .null
  | .str _ => .str
  | .float _ => .float
  | .int _ => .int
  | .seq _ => .seq
  | .map _ => .map

/-- The rendering of `type(v)` in a Python f-string. -/
def pyType : Yaml → String
  | .null => "<class 'NoneType'>"
  | .str _ => "<class 'str'>"
  | .float _ => "<class 'float'>"
  | .int _ => "<class 'int'>"
  | .seq _ => "<class 'list'>"
  | .map _ => "<class 'dict'>"

/-- Helper `_make_bold` from config.py. -/
def makeBold (s : String) : String := "\x1b[1m" ++ s ++ "\x1b[0m"

/-- Helper `_get_delimiter` from config.py. -/
def getDelimiter : String := "->"

/-- The accumulated `config_name` label: the starting name followed by
each key of the path, joined by the delimiter, exactly as
`new_str = f'{config_name} {_get_delimiter()} {key}'` accumulates it. -/
def labelOf (name : String) : List String → String
  | [] => name
  | k :: p => labelOf (name ++ " " ++ getDelimiter ++ " " ++ k) p

/-- One issue appended to `issues_to_print` during `Config._update_config`,
carrying the tree path at which it was recorded (the rendered string is
recovered by `msgOf`). -/
inductive MIssue where
  | typeMismatch (path : List String) (t1 t2 : String) : MIssue
  | noKey (path : List String) (key : String) : MIssue
  deriving DecidableEq

/-- The path at which an issue was recorded. -/
def MIssue.path : MIssue → List String
  | .typeMismatch p _ _ => p
  | .noKey p _ => p

/-- The exact string `Config._update_config` appends to `issues_to_print`
for an issue, given the initial `config_name`. -/
def msgOf (name : String) : MIssue → String
  | .typeMismatch p t1 t2 =>
      labelOf name p ++ " has different types: " ++ t1 ++ " and " ++ t2 ++ "\n"
  | .noKey p k =>
      "No key in " ++ labelOf name p ++ " " ++ getDelimiter ++ " " ++ makeBold k ++ "\n"

mutual

/-- The function `Config._update_config(default_cfg, local_cfg, config_name, issues_to_print)`.

Returns the mutated default value, the issues appended during the call (in
order), and the returned validity flag.  The `cur` argument is the tree path
accumulated into `config_name` (rendered by `labelOf`/`msgOf`). -/
def updateConfig : Yaml → Yaml → List String → Yaml × List MIssue × Bool
  | .map de, .map le, cur =>
      let r := updateEntries de le cur
      (.map r.1, r.2.1, r.2.2)
  | d, l, cur =>
      if kindOf d = kindOf l then (d, [], true)
      else (d, [.typeMismatch cur (pyType d) (pyType l)], false)

/-- The `for key, value in local_cfg.items()` loop of `Config._update_config`,
acting on the default mapping's entries. -/
def updateEntries : YEntries → YEntries → List String → YEntries × List MIssue × Bool
  | de, .nil, _ => (de, [], true)
  | de, .cons k v rest, cur =>
      match dictLookup de k with
      | none =>
          let r := updateEntries de rest cur
          (r.1, .noKey cur k :: r.2.1, false)
      | some dv =>
          if isMap v then
            let s := updateConfig dv v (cur ++ [k])
            let r := updateEntries (dictSet de k s.1) rest cur
            (r.1, s.2.1 ++ r.2.1, s.2.2 && r.2.2)
          else
            updateEntries (dictSet de k v) rest cur

end

/-- The value the merge loop stores at a key `k0` whose local value is
`l0` and whose default value is `d0`: the recursive merge result when the
local value is a mapping, and the local value itself otherwise. -/
def mergedVal (d0 l0 : Yaml) (cur : List String) (k0 : String) : Yaml :=
  if isMap l0 then (updateConfig d0 l0 (cur ++ [k0])).1 else l0

/-- Walk a path of keys down a tree (`cfg[k1][k2]...`), as an `Option`. -/
def treeGet : Yaml → List String → Option Yaml
  | t, [] => some t
  | t, k :: p =>
      match t with
      | .map es =>
          match dictLookup es k with
          | some v => treeGet v p
          | none => none
      | _ => none

/-- The local tree omits the path: walking the path through the tree meets
mappings until some key of the path is absent. -/
def omittedIn : Yaml → List String → Bool
  | _, [] => false
  | t, k :: p =>
      match t with
      | .map es =>
          match dictLookup es k with
          | none => true
          | some v => omittedIn v p
      | _ => false

/-- A string denotes an absolute POSIX path (starts with `'/'`). -/
def isAbs (s : String) : Bool :=
  match s.data with
  | [] => false
  | c :: _ => c = '/'

/-- Rendering `str(base.joinpath(seg))` for `pathlib` paths, for an absolute base path
without trailing separator: a segment that is itself absolute replaces the
base entirely (pathlib: "If a segment is an absolute path, all previous
segments are ignored"), otherwise the segment is appended after a `'/'`. -/
def pathJoin (base seg : String) : String :=
  if isAbs seg then seg else base ++ "/" ++ seg

/-- Python `str.strip()`: remove whitespace from both ends. -/
def pyStrip (s : String) : String :=
  ⟨((s.data.dropWhile Char.isWhitespace).reverse.dropWhile Char.isWhitespace).reverse⟩

/-- Python substring test `pat in s`. -/
def hasSubstr (s pat : String) : Bool :=
  s.data.tails.any (fun t => pat.data.isPrefixOf t)

/-- Rendering `str(base.joinpath(value))` applied to a tree value: defined for strings,
and a `TypeError` (modelled as `.error`) for every other value, exactly as
`PurePath.joinpath` raises on non-string arguments. -/
def joinVal (base : String) : Yaml → Except String Yaml
  | .str s => .ok (.str (pathJoin base s))
  | _ => .error "TypeError"

mutual

/-- The `for key, value in d.items()` loop of `Config._set_absolute_paths`,
over the entries of the mapping `d`, with the resolved working and resources
directories.  An exception raised by `joinpath` aborts the walk. -/
def setAbsEntries (wd rd : String) : YEntries → Except String YEntries
  | .nil => .ok .nil
  | .cons k v rest =>
      match setAbsPair wd rd k v with
      | .error e => .error e
      | .ok v' =>
          match setAbsEntries wd rd rest with
          | .error e => .error e
          | .ok rest' => .ok (.cons k v' rest')

/-- The body of `Config._set_absolute_paths` for one `key, value` pair. -/
def setAbsPair (wd rd : String) (k : String) : Yaml → Except String Yaml
  | .map sub =>
      if pyStrip k = "resources" then
        match resourcesJoin rd sub with
        | .error e => .error e
        | .ok sub' => .ok (.map sub')
      else
        match setAbsEntries wd rd sub with
        | .error e => .error e
        | .ok sub' => .ok (.map sub')
  | .null => .ok .null
  | v =>
      if hasSubstr k "path" then joinVal wd v
      else if hasSubstr k "location" then joinVal rd v
      else .ok v

/-- The `for sub_key, sub_value in value.items()` loop for a mapping under a
key equal to `"resources"` after trimming: each direct sub-value is replaced
by `str(resources_dir.joinpath(sub_value))`, with no deeper descent. -/
def resourcesJoin (rd : String) : YEntries → Except String YEntries
  | .nil => .ok .nil
  | .cons sk sv rest =>
      match joinVal rd sv with
      | .error e => .error e
      | .ok sv' =>
          match resourcesJoin rd rest with
          | .error e => .error e
          | .ok rest' => .ok (.cons sk sv' rest')

end

/-- The state of one configuration source file on disk, as seen by
`Config._read_config`: absent, present but not parseable by
`yaml.safe_load`, present and parsing to `None` (empty document), or present
and parsing to a value. -/
inductive SourceState where
  | missing : SourceState
  | unparseable : SourceState
  | parsedNone : SourceState
  | parsed (t : Yaml) : SourceState
  deriving DecidableEq

/-- The two source files of the load pipeline. -/
structure FS where
  defaultSrc : SourceState
  userSrc : SourceState

/-- The result of `Config._read_config` on one source: a propagated
exception, a print-and-`exit()` on an empty document, or the parsed tree. -/
inductive ReadRes where
  | exn (name : String) : ReadRes
  | emptyExit : ReadRes
  | ok (t : Yaml) : ReadRes
  deriving DecidableEq

/-- The function `Config._read_config(source)`: `open` raises `FileNotFoundError` on a
missing file, `yaml.safe_load` raises a `YAMLError` on an unparseable one,
a document parsing to `None` prints a message and calls `exit()` (process
exit code 0), and otherwise the parsed tree is returned. -/
def readConfig : SourceState → ReadRes
  | .missing => .exn "FileNotFoundError"
  | .unparseable => .exn "YAMLError"
  | .parsedNone => .emptyExit
  | .parsed t => .ok t

/-- Loading the user source in `Config._load_config`: a missing file is
skipped (`Path(...).exists()`) and an empty dict substituted; otherwise
`_read_config` runs on it. -/
def readLocal : SourceState → ReadRes
  | .missing => .ok (.map .nil)
  | s => readConfig s

/-- How one run of `Config._load_config` ends: an exception propagated to
the caller, process termination with exit code 0, or the final tree. -/
inductive LoadOutcome where
  | exn (name : String) : LoadOutcome
  | exitZero : LoadOutcome
  | ok (t : Yaml) : LoadOutcome
  deriving DecidableEq

/-- Observable effects of one run of `Config._load_config`: whether the
"... is empty" message was printed, whether the consolidated issue report
was printed, whether control passed the `if not is_valid` check, and how
the run ended. -/
structure LoadRun where
  printedEmpty : Bool
  printedReport : Bool
  passedValidation : Bool
  outcome : LoadOutcome
  deriving DecidableEq

/-- A `d['general']['working_dir']`-style lookup that must produce a string
(otherwise `Path(...)` or the subscript raises). -/
def getStr (t : Yaml) (p : List String) : Except String String :=
  match treeGet t p with
  | some (.str s) => .ok s
  | some _ => .error "TypeError"
  | none => .error "KeyError"

/-- Assignment `d[k1]...[kn] = v` on a tree of mappings (the path is known to exist
when the pipeline performs this assignment). -/
def treeSet : Yaml → List String → Yaml → Yaml
  | _, [], v => v
  | .map es, k :: p, v =>
      match dictLookup es k with
      | some old => .map (dictSet es k (treeSet old p v))
      | none => .map (dictSet es k (treeSet .null p v))
  | t, _ :: _, _ => t

/-- The merge stage of `Config._load_config`: the pair of trees handed to
`Config._update_config` and its result, when the run reaches the merge at
all (`none` when a read aborted first). -/
def loadMerged (fs : FS) : Option (Yaml × List MIssue × Bool) :=
  match readConfig fs.defaultSrc with
  | .ok dflt =>
      match readLocal fs.userSrc with
      | .ok l => some (updateConfig dflt l [])
      | _ => none
  | _ => none

/-- The part of `Config._load_config` following the merge: report issues if
more than one, `exit(0)` if invalid, then resolve the two base directories
from `config['general']`, write back the absolute working directory, and run
`_set_absolute_paths`. -/
def afterMerge (r : Yaml × List MIssue × Bool) (dname cwd : String) : LoadRun :=
  let issueStrs := r.2.1.map (msgOf dname)
  let printed := decide (issueStrs.length > 1)
  if r.2.2 = false then
    ⟨false, printed, false, .exitZero⟩
  else
    match getStr r.1 ["general", "working_dir"], getStr r.1 ["general", "resources_dir"] with
    | .ok w, .ok rs =>
        let wAbs := pathJoin cwd w
        let rAbs := pathJoin cwd rs
        let cfg := treeSet r.1 ["general", "working_dir"] (.str wAbs)
        match cfg with
        | .map es =>
            match setAbsEntries wAbs rAbs es with
            | .ok es' => ⟨false, printed, true, .ok (.map es')⟩
            | .error e => ⟨false, printed, true, .exn e⟩
        | _ => ⟨false, printed, true, .exn "TypeError"⟩
    | .error e, _ => ⟨false, printed, true, .exn e⟩
    | _, .error e => ⟨false, printed, true, .exn e⟩

/-- One run of `Config._load_config`, over the modelled file system, the
current working directory (used by `Path.absolute()`), and the default
source's name (used in issue messages). -/
def loadConfig (fs : FS) (cwd dname : String) : LoadRun :=
  match readConfig fs.defaultSrc with
  | .exn e => ⟨false, false, false, .exn e⟩
  | .emptyExit => ⟨true, false, false, .exitZero⟩
  | .ok dflt =>
      match readLocal fs.userSrc with
      | .exn e => ⟨false, false, false, .exn e⟩
      | .emptyExit => ⟨true, false, false, .exitZero⟩
      | .ok l => afterMerge (updateConfig dflt l []) dname cwd

/-- Python `d1.update(d2)`: each entry of `d2` is assigned into
`d1` in order. -/
def dictUpdate (d : YEntries) : YEntries → YEntries
  | .nil => d
  | .cons k v rest => dictUpdate (dictSet d k v) rest

/-- The method `Config.get_part(subconfig)` over a loaded store of top-level sections:
a deep copy of the section (an empty dict when the section is `None`),
then `partial_config.update(self['general'])`.  `none` models the
exceptions raised on a missing section, a missing `general` section, or
non-mapping values. -/
def getPart (store : YEntries) (subconfig : String) : Option YEntries :=
  match dictLookup store subconfig, dictLookup store "general" with
  | some sect, some (.map g) =>
      match sect with
      | .null => some (dictUpdate .nil g)
      | .map es => some (dictUpdate es g)
      | _ => none
  | _, _ => none

/-- All values of a mapping are strings (the claims' "plain filename
fragments" reading of a resources block). -/
def allStr : YEntries → Bool
  | .nil => true
  | .cons _ (.str _) rest => allStr rest
  | .cons _ _ _ => false

/-- Spec-side description (following the claim's words) of the resources
rule: every direct sub-value is replaced by `resources_dir / sub_value`,
with no deeper descent.  Compared against `resourcesJoin`, the function
translated from the source. -/
def resourcesSpec (rd : String) : YEntries → YEntries
  | .nil => .nil
  | .cons k (.str s) rest => .cons k (.str (pathJoin rd s)) (resourcesSpec rd rest)
  | .cons k v rest => .cons k v (resourcesSpec rd rest)

example :
    updateConfig (.map (.cons "a" (.int 1) .nil)) (.map (.cons "a" (.int 2) .nil)) []
      = (.map (.cons "a" (.int 2) .nil), [], true) := rfl

example :
    updateConfig (.map (.cons "a" (.int 1) .nil)) (.map (.cons "b" (.int 2) .nil)) []
      = (.map (.cons "a" (.int 1) .nil), [.noKey [] "b"], false) := rfl

example :
    updateConfig (.map (.cons "a" (.map (.cons "b" (.int 1) .nil)) .nil))
        (.map (.cons "a" (.int 2) .nil)) []
      = (.map (.cons "a" (.int 2) .nil), [], true) := rfl

example :
    updateConfig (.int 1) (.str "x") ["p"]
      = (.int 1, [.typeMismatch ["p"] "<class 'int'>" "<class 'str'>"], false) := rfl

example :
    setAbsEntries "/w" "/r" (.cons "weights_path" (.str "w.bin") .nil)
      = .ok (.cons "weights_path" (.str "/w/w.bin") .nil) := rfl

/-- C2 counterexample: with default `{a: {b: 1}}` and local `{a: 2}`, the
kinds at path `a` disagree (mapping vs integer), yet the merge records no
issue, stays valid, and silently overwrites the default mapping with the
local integer.  This refutes the claim that every kind disagreement is
recorded "whichever of the two nodes is the mapping". -/
theorem c2_counterexample :
    updateConfig (.map (.cons "a" (.map (.cons "b" (.int 1) .nil)) .nil))
        (.map (.cons "a" (.int 2) .nil)) []
      = (.map (.cons "a" (.int 2) .nil), [], true)
    ∧ Option.map kindOf
        (treeGet (.map (.cons "a" (.map (.cons "b" (.int 1) .nil)) .nil)) ["a"])
      ≠ Option.map kindOf (treeGet (.map (.cons "a" (.int 2) .nil)) ["a"]) :=
  ⟨rfl, by decide⟩

/-- C2 amended: the "has different types" issue is recorded (with the overall
result marked invalid and no further descent) exactly when the merge is
invoked on a pair of values of different kinds — at the root, or at a key
whose local value is a mapping.  At a key whose local value is a non-mapping,
the default's value is overwritten unconditionally, with no issue and no
invalidation, whatever the default value's kind. -/
theorem c2_amended :
    (∀ (d l : Yaml) (cur : List String), kindOf d ≠ kindOf l →
        updateConfig d l cur = (d, [.typeMismatch cur (pyType d) (pyType l)], false))
    ∧ (∀ (de : YEntries) (k : String) (v dv : Yaml) (cur : List String),
        dictLookup de k = some dv → isMap v = false →
        updateEntries de (.cons k v .nil) cur = (dictSet de k v, [], true)) := by
  constructor
  · intro d l cur h
    cases d <;> cases l <;> simp_all [updateConfig, kindOf]
  · intro de k v dv cur h hv
    simp [updateEntries, h, hv]

/-- Witness for C2's amended theorem at concrete inputs. -/
theorem c2_amended_witness :
    updateConfig (.int 1) (.str "x") []
      = (.int 1, [.typeMismatch [] "<class 'int'>" "<class 'str'>"], false)
    ∧ updateEntries (.cons "a" (.int 1) .nil) (.cons "a" (.str "x") .nil) []
      = (.cons "a" (.str "x") .nil, [], true) :=
  ⟨c2_amended.1 (.int 1) (.str "x") [] (by decide),
   c2_amended.2 (.cons "a" (.int 1) .nil) "a" (.str "x") (.int 1) [] rfl rfl⟩

/-- C4 counterexample: with default `{a: {b: 1}}` and local `{a: 2}`, the
key path `a -> b` is present only in the default tree, yet after the merge
its value is not unchanged — the whole default subtree at `a` was replaced
by the local leaf, so the key is gone. -/
theorem c4_counterexample :
    treeGet (.map (.cons "a" (.map (.cons "b" (.int 1) .nil)) .nil)) ["a", "b"]
      = some (.int 1)
    ∧ treeGet (.map (.cons "a" (.int 2) .nil)) ["a", "b"] = none
    ∧ treeGet (updateConfig (.map (.cons "a" (.map (.cons "b" (.int 1) .nil)) .nil))
        (.map (.cons "a" (.int 2) .nil)) []).1 ["a", "b"] = none :=
  ⟨rfl, rfl, rfl⟩

/-- C10 counterexample: with default `{a: 1}` and local `{b: 2}`, merging the
local tree a second time into the result of the first merge collects the
same "No key" issue again — not zero issues as claimed. -/
theorem c10_counterexample :
    (updateConfig
        (updateConfig (.map (.cons "a" (.int 1) .nil)) (.map (.cons "b" (.int 2) .nil)) []).1
        (.map (.cons "b" (.int 2) .nil)) []).2.1
      = [.noKey [] "b"]
    ∧ (updateConfig
        (updateConfig (.map (.cons "a" (.int 1) .nil)) (.map (.cons "b" (.int 2) .nil)) []).1
        (.map (.cons "b" (.int 2) .nil)) []).2.1 ≠ [] :=
  ⟨rfl, by decide⟩

/-- C1 counterexample: a run whose default source file is missing ends with
a propagated `FileNotFoundError`, not a graceful exit with code 0. -/
theorem c1_counterexample :
    (loadConfig ⟨.missing, .missing⟩ "/cwd" "config-default.yaml").outcome
      = .exn "FileNotFoundError"
    ∧ (loadConfig ⟨.missing, .missing⟩ "/cwd" "config-default.yaml").outcome
      ≠ .exitZero :=
  ⟨rfl, by decide⟩

/-- C1 amended: the load pipeline exits gracefully with code 0 when a source
parses to no content (default source empty, or user source present but
empty) or when merge/validation fails; a missing or unparseable default
source — and an unparseable user source — instead propagates an exception
to the caller. -/
theorem c1_amended (fs : FS) (cwd dname : String) :
    (fs.defaultSrc = .missing →
        (loadConfig fs cwd dname).outcome = .exn "FileNotFoundError")
    ∧ (fs.defaultSrc = .unparseable →
        (loadConfig fs cwd dname).outcome = .exn "YAMLError")
    ∧ (fs.defaultSrc = .parsedNone →
        (loadConfig fs cwd dname).outcome = .exitZero)
    ∧ (∀ t, fs.defaultSrc = .parsed t → fs.userSrc = .parsedNone →
        (loadConfig fs cwd dname).outcome = .exitZero)
    ∧ (∀ t, fs.defaultSrc = .parsed t → fs.userSrc = .unparseable →
        (loadConfig fs cwd dname).outcome = .exn "YAMLError")
    ∧ (∀ r, loadMerged fs = some r → r.2.2 = false →
        (loadConfig fs cwd dname).outcome = .exitZero) := by
  obtain ⟨dsrc, usrc⟩ := fs
  refine ⟨?_, ?_, ?_, ?_, ?_, ?_⟩ <;> intro h
  · subst h; rfl
  · subst h; rfl
  · subst h; rfl
  · intro hd hu; subst hd; subst hu; rfl
  · intro hd hu; subst hd; subst hu; rfl
  · intro hm hv
    cases dsrc <;> simp [loadMerged, readConfig] at hm
    cases usrc <;> simp [readLocal, readConfig] at hm <;> subst hm <;>
      simp [loadConfig, readConfig, readLocal, afterMerge, hv]

/-- Witness for C1's amended theorem at concrete inputs. -/
theorem c1_witness :
    (loadConfig ⟨.parsedNone, .missing⟩ "/c" "d").outcome = .exitZero
    ∧ (loadConfig ⟨.unparseable, .missing⟩ "/c" "d").outcome = .exn "YAMLError" :=
  ⟨(c1_amended ⟨.parsedNone, .missing⟩ "/c" "d").2.2.1 rfl,
   (c1_amended ⟨.unparseable, .missing⟩ "/c" "d").2.1 rfl⟩

theorem isAbs_append (a b : String) (h : isAbs a = true) : isAbs (a ++ b) = true := by
  unfold isAbs at h ⊢
  rw [String.data_append]
  cases hd : a.data with
  | nil => simp [hd] at h
  | cons c cs => rw [hd] at h; simpa using h

theorem isAbs_pathJoin (base s : String) (h : isAbs base = true) :
    isAbs (pathJoin base s) = true := by
  unfold pathJoin
  split
  · assumption
  · exact isAbs_append _ _ (isAbs_append _ _ h)

theorem pathJoin_of_isAbs (base s : String) (h : isAbs s = true) : pathJoin base s = s := by
  simp [pathJoin, h]

theorem joinVal_idem (base : String) (hb : isAbs base = true) (v v' : Yaml)
    (h : joinVal base v = .ok v') : joinVal base v' = .ok v' := by
  cases v <;> simp [joinVal] at h <;> subst h
  simp [joinVal, pathJoin_of_isAbs _ _ (isAbs_pathJoin base _ hb)]

theorem resourcesJoin_idem (rd : String) (hr : isAbs rd = true) :
    ∀ (es es' : YEntries), resourcesJoin rd es = .ok es' → resourcesJoin rd es' = .ok es'
  | .nil, es', h => by
      simp only [resourcesJoin] at h
      cases h
      rfl
  | .cons sk sv rest, es', h => by
      simp only [resourcesJoin] at h
      cases hv : joinVal rd sv with
      | error e => rw [hv] at h; cases h
      | ok sv1 =>
          rw [hv] at h
          cases hrest : resourcesJoin rd rest with
          | error e => rw [hrest] at h; cases h
          | ok rest1 =>
              rw [hrest] at h
              cases h
              simp only [resourcesJoin, joinVal_idem rd hr sv sv1 hv,
                resourcesJoin_idem rd hr rest rest1 hrest]

mutual

theorem setAbsPair_idem (wd rd : String) (hw : isAbs wd = true) (hr : isAbs rd = true)
    (k : String) (v v' : Yaml) (h : setAbsPair wd rd k v = .ok v') :
    setAbsPair wd rd k v' = .ok v' := by
  cases v with
  | map sub =>
      simp only [setAbsPair] at h ⊢
      by_cases hk : pyStrip k = "resources"
      · rw [if_pos hk] at h
        cases hres : resourcesJoin rd sub with
        | error e => rw [hres] at h; cases h
        | ok sub1 =>
            rw [hres] at h
            cases h
            simp only [setAbsPair, if_pos hk, resourcesJoin_idem rd hr sub sub1 hres]
      · rw [if_neg hk] at h
        cases hes : setAbsEntries wd rd sub with
        | error e => rw [hes] at h; cases h
        | ok sub1 =>
            rw [hes] at h
            cases h
            simp only [setAbsPair, if_neg hk, setAbsEntries_idem wd rd hw hr sub sub1 hes]
  | null => simp only [setAbsPair] at h; cases h; rfl
  | str s =>
      simp only [setAbsPair] at h
      by_cases hp : hasSubstr k "path"
      · rw [if_pos hp] at h
        simp only [joinVal] at h
        cases h
        simp [setAbsPair, if_pos hp, joinVal,
          pathJoin_of_isAbs _ _ (isAbs_pathJoin wd s hw)]
      · rw [if_neg hp] at h
        by_cases hl : hasSubstr k "location"
        · rw [if_pos hl] at h
          simp only [joinVal] at h
          cases h
          simp [setAbsPair, if_neg hp, if_pos hl, joinVal,
            pathJoin_of_isAbs _ _ (isAbs_pathJoin rd s hr)]
        · rw [if_neg hl] at h
          cases h
          simp [setAbsPair, if_neg hp, if_neg hl]
  | float q =>
      simp only [setAbsPair] at h
      split at h <;> simp [joinVal] at h
      split at h <;> simp [joinVal] at h
      cases h
      simp_all [setAbsPair, joinVal]
  | int n =>
      simp only [setAbsPair] at h
      split at h <;> simp [joinVal] at h
      split at h <;> simp [joinVal] at h
      cases h
      simp_all [setAbsPair, joinVal]
  | seq items =>
      simp only [setAbsPair] at h
      split at h <;> simp [joinVal] at h
      split at h <;> simp [joinVal] at h
      cases h
      simp_all [setAbsPair, joinVal]

theorem setAbsEntries_idem (wd rd : String) (hw : isAbs wd = true) (hr : isAbs rd = true)
    (es es' : YEntries) (h : setAbsEntries wd rd es = .ok es') :
    setAbsEntries wd rd es' = .ok es' := by
  cases es with
  | nil => simp only [setAbsEntries] at h; cases h; rfl
  | cons k v rest =>
      simp only [setAbsEntries] at h
      cases hv : setAbsPair wd rd k v with
      | error e => rw [hv] at h; cases h
      | ok v1 =>
          rw [hv] at h
          cases hrest : setAbsEntries wd rd rest with
          | error e => rw [hrest] at h; cases h
          | ok rest1 =>
              rw [hrest] at h
              cases h
              simp only [setAbsEntries, setAbsPair_idem wd rd hw hr k v v1 hv,
                setAbsEntries_idem wd rd hw hr rest rest1 hrest]

end

/-- C3 counterexample: with working directory `/w`, resolving
`{weights_path: "w.bin"}` yields `{weights_path: "/w/w.bin"}`, and running
the resolution pass a second time on that result yields the very same tree:
`joinpath` ignores the base when the segment is already absolute, so the
re-run does NOT produce `base_dir / absolute_path` and is NOT different from
the original — resolution is in fact idempotent, refuting the claim. -/
theorem c3_counterexample :
    setAbsEntries "/w" "/r" (.cons "weights_path" (.str "w.bin") .nil)
      = .ok (.cons "weights_path" (.str "/w/w.bin") .nil)
    ∧ setAbsEntries "/w" "/r" (.cons "weights_path" (.str "/w/w.bin") .nil)
      = .ok (.cons "weights_path" (.str "/w/w.bin") .nil)
    ∧ pathJoin "/w" "/w/w.bin" = "/w/w.bin"
    ∧ "/w/w.bin" ≠ "/w" ++ "/" ++ "/w/w.bin" :=
  ⟨rfl, rfl, rfl, by decide⟩

/-- C3 amended: with absolute base directories (as produced by
`Path.absolute()`), re-running the path-resolution pass on an already
resolved tree reproduces that tree unchanged — `joinpath` replaces the base
with an already-absolute segment, so resolution IS safe to double-apply. -/
theorem c3_amended (wd rd : String) (hw : isAbs wd = true) (hr : isAbs rd = true)
    (es es' : YEntries) (h : setAbsEntries wd rd es = .ok es') :
    setAbsEntries wd rd es' = .ok es' :=
  setAbsEntries_idem wd rd hw hr es es' h

/-- Witness for C3's amended theorem at a concrete tree. -/
theorem c3_witness :
    setAbsEntries "/w" "/r"
        (.cons "model" (.map (.cons "weights_path" (.str "/w/w.bin") .nil)) .nil)
      = .ok (.cons "model" (.map (.cons "weights_path" (.str "/w/w.bin") .nil)) .nil) :=
  c3_amended "/w" "/r" rfl rfl
    (.cons "model" (.map (.cons "weights_path" (.str "w.bin") .nil)) .nil) _ rfl

theorem resourcesJoin_spec (rd : String) :
    ∀ (es : YEntries), allStr es = true → resourcesJoin rd es = .ok (resourcesSpec rd es)
  | .nil, _ => rfl
  | .cons k (.str s) rest, h => by
      simp only [allStr] at h
      simp only [resourcesJoin, joinVal, resourcesSpec, resourcesJoin_spec rd rest h]
  | .cons _ (.null) _, h => by simp [allStr] at h
  | .cons _ (.float _) _, h => by simp [allStr] at h
  | .cons _ (.int _) _, h => by simp [allStr] at h
  | .cons _ (.seq _) _, h => by simp [allStr] at h
  | .cons _ (.map _) _, h => by simp [allStr] at h

/-- C7 counterexample: a non-string scalar under a key containing "path" is
not replaced by `working_dir / value` — `joinpath` raises a `TypeError`
(modelled as `.error`), so the claim's scalar rule fails for non-string
scalars. -/
theorem c7_counterexample :
    setAbsPair "/w" "/r" "xpath" (.int 5) = .error "TypeError" := rfl

/-- C7 amended: the resolution pass walks mapping nodes depth-first and
transforms each key/value pair as claimed, with the scalar and resources
rules restricted to string values (non-string values under a path/location
key or inside a resources block raise a `TypeError` instead): a mapping
under a key equal to "resources" after trimming has each direct string
sub-value replaced by `resources_dir / sub_value` with no deeper descent;
any other mapping value is recursed into; a null value is left unchanged; a
string value has `working_dir / value` substituted if its key contains
"path", else `resources_dir / value` if its key contains "location", else it
is left unchanged. -/
theorem c7_amended (wd rd k : String) :
    (∀ sub, pyStrip k = "resources" → allStr sub = true →
        setAbsPair wd rd k (.map sub) = .ok (.map (resourcesSpec rd sub)))
    ∧ (∀ sub, pyStrip k ≠ "resources" →
        setAbsPair wd rd k (.map sub) = Except.map Yaml.map (setAbsEntries wd rd sub))
    ∧ (∀ s, setAbsPair wd rd k (.str s)
        = .ok (.str (if hasSubstr k "path" then pathJoin wd s
                     else if hasSubstr k "location" then pathJoin rd s else s)))
    ∧ setAbsPair wd rd k .null = .ok .null := by
  refine ⟨?_, ?_, ?_, rfl⟩
  · intro sub hk hstr
    simp [setAbsPair, hk, resourcesJoin_spec rd sub hstr]
  · intro sub hk
    simp only [setAbsPair, if_neg hk]
    cases setAbsEntries wd rd sub <;> rfl
  · intro s
    simp only [setAbsPair]
    by_cases hp : hasSubstr k "path" <;> by_cases hl : hasSubstr k "location" <;>
      simp [hp, hl, joinVal]

/-- Witness for C7's amended theorem at concrete inputs. -/
theorem c7_witness :
    setAbsPair "/w" "/r" "resources" (.map (.cons "icon" (.str "logo.png") .nil))
      = .ok (.map (.cons "icon" (.str "/r/logo.png") .nil))
    ∧ setAbsPair "/w" "/r" "model" (.map (.cons "weights_path" (.str "w.bin") .nil))
      = Except.map Yaml.map
          (setAbsEntries "/w" "/r" (.cons "weights_path" (.str "w.bin") .nil))
    ∧ setAbsPair "/w" "/r" "weights_path" (.str "w.bin") = .ok (.str "/w/w.bin")
    ∧ setAbsPair "/w" "/r" "name" .null = .ok .null := by
  refine ⟨?_, ?_, ?_, (c7_amended "/w" "/r" "name").2.2.2⟩
  · exact (c7_amended "/w" "/r" "resources").1 (.cons "icon" (.str "logo.png") .nil) rfl rfl
  · exact (c7_amended "/w" "/r" "model").2.1 (.cons "weights_path" (.str "w.bin") .nil)
      (by decide)
  · have h := (c7_amended "/w" "/r" "weights_path").2.2.1 "w.bin"
    simpa using h

/-- C8 confirmed: when the user source file does not exist (and the default
source parses to a mapping), loading is not an error — an empty mapping is
substituted for the local tree, and the merge pass runs with it, collects
zero issues, returns a valid result, and leaves every default value in
place. -/
theorem c8_confirmed (fs : FS) (de : YEntries)
    (hu : fs.userSrc = .missing) (hd : fs.defaultSrc = .parsed (.map de)) :
    loadMerged fs = some (.map de, [], true) := by
  simp [loadMerged, hd, hu, readConfig, readLocal, updateConfig, updateEntries]

/-- Witness for C8 at a concrete file system. -/
theorem c8_witness :
    loadMerged ⟨.parsed (.map (.cons "a" (.int 1) .nil)), .missing⟩
      = some (.map (.cons "a" (.int 1) .nil), [], true) :=
  c8_confirmed ⟨.parsed (.map (.cons "a" (.int 1) .nil)), .missing⟩
    (.cons "a" (.int 1) .nil) rfl rfl

mutual

theorem valid_no_issues (d l : Yaml) (cur : List String)
    (h : (updateConfig d l cur).2.2 = true) : (updateConfig d l cur).2.1 = [] := by
  cases d with
  | map de =>
      cases l with
      | map le =>
          simp only [updateConfig] at h ⊢
          exact valid_no_issues_entries de le cur h
      | null => simp only [updateConfig] at h ⊢; split_ifs at h ⊢ <;> simp_all
      | str s => simp only [updateConfig] at h ⊢; split_ifs at h ⊢ <;> simp_all
      | float q => simp only [updateConfig] at h ⊢; split_ifs at h ⊢ <;> simp_all
      | int n => simp only [updateConfig] at h ⊢; split_ifs at h ⊢ <;> simp_all
      | seq xs => simp only [updateConfig] at h ⊢; split_ifs at h ⊢ <;> simp_all
  | null => simp only [updateConfig] at h ⊢; split_ifs at h ⊢ <;> simp_all
  | str s => simp only [updateConfig] at h ⊢; split_ifs at h ⊢ <;> simp_all
  | float q => simp only [updateConfig] at h ⊢; split_ifs at h ⊢ <;> simp_all
  | int n => simp only [updateConfig] at h ⊢; split_ifs at h ⊢ <;> simp_all
  | seq xs => simp only [updateConfig] at h ⊢; split_ifs at h ⊢ <;> simp_all

theorem valid_no_issues_entries (de le : YEntries) (cur : List String)
    (h : (updateEntries de le cur).2.2 = true) : (updateEntries de le cur).2.1 = [] := by
  cases le with
  | nil => rfl
  | cons k v rest =>
      simp only [updateEntries] at h ⊢
      split at h
      · exact Bool.noConfusion h
      · next dv heq =>
          by_cases hv : isMap v = true
          · rw [if_pos hv] at h ⊢
            rw [Bool.and_eq_true] at h
            rw [valid_no_issues dv v (cur ++ [k]) h.1,
              valid_no_issues_entries (dictSet de k (updateConfig dv v (cur ++ [k])).1)
                rest cur h.2]
            rfl
          · rw [if_neg hv] at h ⊢
            exact valid_no_issues_entries (dictSet de k v) rest cur h

end

theorem afterMerge_printedReport (r : Yaml × List MIssue × Bool) (dname cwd : String) :
    (afterMerge r dname cwd).printedReport = decide (r.2.1.length > 1) := by
  simp only [afterMerge, List.length_map]
  split
  · rfl
  · split
    · split
      · split <;> rfl
      · rfl
    · rfl
    · rfl

theorem afterMerge_exitZero_iff (r : Yaml × List MIssue × Bool) (dname cwd : String) :
    ((afterMerge r dname cwd).outcome = .exitZero) ↔ r.2.2 = false := by
  simp only [afterMerge]
  split
  · next hval => simp [hval]
  · next hval =>
      have hv : r.2.2 = true := by revert hval; cases r.2.2 <;> simp
      split
      · split
        · split <;> simp [hv]
        · simp [hv]
      · simp [hv]
      · simp [hv]

theorem afterMerge_passed_iff (r : Yaml × List MIssue × Bool) (dname cwd : String) :
    ((afterMerge r dname cwd).passedValidation = true) ↔ r.2.2 = true := by
  simp only [afterMerge]
  split
  · next hval => simp [hval]
  · next hval =>
      have hv : r.2.2 = true := by revert hval; cases r.2.2 <;> simp
      split
      · split
        · split <;> simp [hv]
        · simp [hv]
      · simp [hv]
      · simp [hv]

theorem c6_core (dflt l t : Yaml) (iss : List MIssue) (ok : Bool) (run : LoadRun)
    (cwd dname : String)
    (h : updateConfig dflt l [] = (t, iss, ok))
    (hrun : run = afterMerge (t, iss, ok) dname cwd) :
    (run.printedReport = true ↔ iss.length > 1)
    ∧ (run.outcome = .exitZero ↔ ok = false)
    ∧ (ok = true → iss = [] ∧ run.printedReport = false ∧ run.passedValidation = true) := by
  subst hrun
  refine ⟨?_, ?_, ?_⟩
  · rw [afterMerge_printedReport]; simp
  · exact afterMerge_exitZero_iff _ _ _
  · intro hok
    have hiss : iss = [] := by
      have h22 : (updateConfig dflt l []).2.2 = true := by rw [h]; exact hok
      have h21 := valid_no_issues dflt l [] h22
      rw [h] at h21; exact h21
    refine ⟨hiss, ?_, ?_⟩
    · rw [afterMerge_printedReport]; simp [hiss]
    · exact (afterMerge_passed_iff _ _ _).mpr hok

/-- C6 confirmed: once the merge stage has run inside `_load_config`, the
consolidated issue report is printed exactly when more than one issue was
collected, the process exits (code 0) exactly when the validity flag is
false (in particular a single issue aborts silently, with no report), and a
true flag implies zero collected issues, no report, and silent
continuation past the validation check. -/
theorem c6_confirmed (fs : FS) (cwd dname : String) (t : Yaml) (iss : List MIssue)
    (ok : Bool) (h : loadMerged fs = some (t, iss, ok)) :
    ((loadConfig fs cwd dname).printedReport = true ↔ iss.length > 1)
    ∧ ((loadConfig fs cwd dname).outcome = .exitZero ↔ ok = false)
    ∧ (ok = true → iss = [] ∧ (loadConfig fs cwd dname).printedReport = false
        ∧ (loadConfig fs cwd dname).passedValidation = true) := by
  obtain ⟨dsrc, usrc⟩ := fs
  cases dsrc <;> simp [loadMerged, readConfig] at h
  case parsed dflt =>
  cases usrc <;> simp [readLocal, readConfig] at h
  case missing =>
    exact c6_core dflt (.map .nil) t iss ok _ cwd dname h
      (by simp [loadConfig, readConfig, readLocal, h])
  case parsed u =>
    exact c6_core dflt u t iss ok _ cwd dname h
      (by simp [loadConfig, readConfig, readLocal, h])

/-- Witness for C6 at a concrete file system: a single unknown key yields
one issue — no report is printed, yet the process exits. -/
theorem c6_witness :
    ((loadConfig ⟨.parsed (.map (.cons "a" (.int 1) .nil)),
        .parsed (.map (.cons "b" (.int 2) .nil))⟩ "/c" "d").printedReport = true
      ↔ [MIssue.noKey [] "b"].length > 1)
    ∧ ((loadConfig ⟨.parsed (.map (.cons "a" (.int 1) .nil)),
        .parsed (.map (.cons "b" (.int 2) .nil))⟩ "/c" "d").outcome = .exitZero
      ↔ false = false) :=
  ⟨(c6_confirmed ⟨.parsed (.map (.cons "a" (.int 1) .nil)),
      .parsed (.map (.cons "b" (.int 2) .nil))⟩ "/c" "d"
      (.map (.cons "a" (.int 1) .nil)) [MIssue.noKey [] "b"] false rfl).1,
   (c6_confirmed ⟨.parsed (.map (.cons "a" (.int 1) .nil)),
      .parsed (.map (.cons "b" (.int 2) .nil))⟩ "/c" "d"
      (.map (.cons "a" (.int 1) .nil)) [MIssue.noKey [] "b"] false rfl).2.1⟩

theorem dictLookup_dictSet_self : ∀ (d : YEntries) (k : String) (v : Yaml),
    dictLookup (dictSet d k v) k = some v
  | .nil, k, v => by simp [dictSet, dictLookup]
  | .cons k' v' rest, k, v => by
      by_cases hk : k' = k
      · subst hk; simp [dictSet, dictLookup]
      · simp [dictSet, dictLookup, hk, dictLookup_dictSet_self rest k v]

theorem dictLookup_dictSet_ne : ∀ (d : YEntries) (k k' : String) (v : Yaml), k' ≠ k →
    dictLookup (dictSet d k' v) k = dictLookup d k
  | .nil, k, k', v, h => by simp [dictSet, dictLookup, h]
  | .cons k'' v'' rest, k, k', v, h => by
      by_cases h2 : k'' = k'
      · subst h2; simp [dictSet, dictLookup, h]
      · by_cases h3 : k'' = k
        · subst h3; simp [dictSet, dictLookup, h2]
        · simp [dictSet, dictLookup, h2, h3, dictLookup_dictSet_ne rest k k' v h]

theorem lookup_none_of_keyMem_false : ∀ (d : YEntries) (k : String),
    keyMem k d = false → dictLookup d k = none
  | .nil, _, _ => rfl
  | .cons k' v rest, k, h => by
      simp only [keyMem] at h
      by_cases hk : k' = k
      · simp [hk] at h
      · simp only [dictLookup, if_neg hk]
        exact lookup_none_of_keyMem_false rest k (by simpa [hk] using h)

theorem dictLookup_dictUpdate : ∀ (g d : YEntries) (k : String), keysNodup g = true →
    dictLookup (dictUpdate d g) k = (dictLookup g k).elim (dictLookup d k) some
  | .nil, d, k, _ => by simp [dictUpdate, dictLookup]
  | .cons k0 v0 rest, d, k, hg => by
      simp only [keysNodup, Bool.and_eq_true, Bool.not_eq_true'] at hg
      simp only [dictUpdate]
      rw [dictLookup_dictUpdate rest (dictSet d k0 v0) k hg.2]
      by_cases hk : k0 = k
      · subst hk
        rw [lookup_none_of_keyMem_false rest k0 hg.1]
        simp [dictLookup, dictLookup_dictSet_self]
      · rw [dictLookup_dictSet_ne d k k0 v0 hk]
        simp [dictLookup, hk]

/-- C9 confirmed: for a loaded store and a section that is among the loaded
top-level keys and holds a mapping (or null, treated as an empty mapping),
`get_part` returns the section's entries with every key of the `general`
section overlaid on top — `general`'s value winning on every key collision.
(The source deep-copies the section before updating it, so the stored
sections are unchanged; in this value-level embedding `getPart` computes a
fresh value.) -/
theorem c9_confirmed (store : YEntries) (name : String) (sect : Yaml) (g es : YEntries)
    (hs : dictLookup store name = some sect)
    (hsect : sect = .map es ∨ (sect = .null ∧ es = .nil))
    (hg : dictLookup store "general" = some (.map g))
    (hnd : keysNodup g = true) :
    ∃ res, getPart store name = some res
      ∧ ∀ k, dictLookup res k = (dictLookup g k).elim (dictLookup es k) some := by
  rcases hsect with h | ⟨h, he⟩
  · subst h
    exact ⟨dictUpdate es g, by simp [getPart, hs, hg],
      fun k => dictLookup_dictUpdate g es k hnd⟩
  · subst h; subst he
    exact ⟨dictUpdate .nil g, by simp [getPart, hs, hg],
      fun k => dictLookup_dictUpdate g .nil k hnd⟩

/-- Witness for C9: the spec's own example, `general: {timeout: 30}` and
`feature: {threshold: 5}`. -/
theorem c9_witness :
    ∃ res,
      getPart (.cons "general" (.map (.cons "timeout" (.int 30) .nil))
          (.cons "feature" (.map (.cons "threshold" (.int 5) .nil)) .nil)) "feature"
        = some res
      ∧ ∀ k, dictLookup res k
          = (dictLookup (.cons "timeout" (.int 30) .nil) k).elim
              (dictLookup (.cons "threshold" (.int 5) .nil) k) some :=
  c9_confirmed
    (.cons "general" (.map (.cons "timeout" (.int 30) .nil))
      (.cons "feature" (.map (.cons "threshold" (.int 5) .nil)) .nil))
    "feature" (.map (.cons "threshold" (.int 5) .nil))
    (.cons "timeout" (.int 30) .nil) (.cons "threshold" (.int 5) .nil)
    rfl (Or.inl rfl) rfl rfl

theorem updateConfig_map_map (de le : YEntries) (cur : List String) :
    updateConfig (.map de) (.map le) cur
      = (.map (updateEntries de le cur).1,
         (updateEntries de le cur).2.1, (updateEntries de le cur).2.2) := rfl

theorem updateEntries_cons_none (de : YEntries) (k : String) (v : Yaml)
    (rest : YEntries) (cur : List String) (h : dictLookup de k = none) :
    updateEntries de (.cons k v rest) cur
      = ((updateEntries de rest cur).1,
         .noKey cur k :: (updateEntries de rest cur).2.1, false) := by
  simp only [updateEntries, h]

theorem updateEntries_cons_map (de : YEntries) (k : String) (dv v : Yaml)
    (rest : YEntries) (cur : List String)
    (h : dictLookup de k = some dv) (hv : isMap v = true) :
    updateEntries de (.cons k v rest) cur
      = ((updateEntries (dictSet de k (updateConfig dv v (cur ++ [k])).1) rest cur).1,
         (updateConfig dv v (cur ++ [k])).2.1
           ++ (updateEntries (dictSet de k (updateConfig dv v (cur ++ [k])).1) rest cur).2.1,
         (updateConfig dv v (cur ++ [k])).2.2
           && (updateEntries (dictSet de k (updateConfig dv v (cur ++ [k])).1) rest cur).2.2) := by
  simp only [updateEntries, h, hv, if_true]

theorem updateEntries_cons_leaf (de : YEntries) (k : String) (dv v : Yaml)
    (rest : YEntries) (cur : List String)
    (h : dictLookup de k = some dv) (hv : isMap v = false) :
    updateEntries de (.cons k v rest) cur = updateEntries (dictSet de k v) rest cur := by
  simp only [updateEntries, h, hv, Bool.false_eq_true, if_false]

theorem keyMem_eq_isSome_lookup : ∀ (d : YEntries) (k : String),
    keyMem k d = (dictLookup d k).isSome
  | .nil, k => rfl
  | .cons k' v rest, k => by
      by_cases hk : k' = k
      · simp [keyMem, dictLookup, hk]
      · simp [keyMem, dictLookup, hk, keyMem_eq_isSome_lookup rest k]

theorem dictSet_eq_self : ∀ (d : YEntries) (k : String) (v : Yaml),
    dictLookup d k = some v → dictSet d k v = d
  | .nil, k, v, h => by simp [dictLookup] at h
  | .cons k' v' rest, k, v, h => by
      by_cases hk : k' = k
      · subst hk
        simp only [dictLookup, if_true, eq_self_iff_true, Option.some.injEq] at h
        simp [dictSet, h]
      · simp only [dictLookup, if_neg hk] at h
        simp [dictSet, hk, dictSet_eq_self rest k v h]

theorem lookup_updateEntries_of_not_mem : ∀ (le de : YEntries) (cur : List String)
    (k : String), keyMem k le = false →
    dictLookup (updateEntries de le cur).1 k = dictLookup de k
  | .nil, de, cur, k, _ => rfl
  | .cons k0 v0 rest, de, cur, k, h => by
      simp only [keyMem] at h
      by_cases hk : k0 = k
      · rw [if_pos hk] at h; exact Bool.noConfusion h
      · rw [if_neg hk] at h
        cases hdk : dictLookup de k0 with
        | none =>
            rw [updateEntries_cons_none de k0 v0 rest cur hdk]
            exact lookup_updateEntries_of_not_mem rest de cur k h
        | some dv =>
            cases hv : isMap v0 with
            | true =>
                rw [updateEntries_cons_map de k0 dv v0 rest cur hdk hv]
                dsimp only
                rw [lookup_updateEntries_of_not_mem rest _ cur k h,
                  dictLookup_dictSet_ne de k k0 _ hk]
            | false =>
                rw [updateEntries_cons_leaf de k0 dv v0 rest cur hdk hv]
                rw [lookup_updateEntries_of_not_mem rest _ cur k h,
                  dictLookup_dictSet_ne de k k0 v0 hk]

theorem lookup_updateEntries_found : ∀ (le de : YEntries) (cur : List String)
    (k0 : String) (l0 d0 : Yaml), keysNodup le = true →
    dictLookup le k0 = some l0 → dictLookup de k0 = some d0 →
    dictLookup (updateEntries de le cur).1 k0 = some (mergedVal d0 l0 cur k0)
  | .nil, de, cur, k0, l0, d0, _, hl, _ => by simp [dictLookup] at hl
  | .cons k v rest, de, cur, k0, l0, d0, hnd, hl, hd => by
      simp only [keysNodup, Bool.and_eq_true, Bool.not_eq_true'] at hnd
      by_cases hk : k = k0
      · subst hk
        simp only [dictLookup, if_true, eq_self_iff_true, Option.some.injEq] at hl
        subst hl
        cases hv : isMap v with
        | true =>
            rw [updateEntries_cons_map de k d0 v rest cur hd hv]
            dsimp only
            rw [lookup_updateEntries_of_not_mem rest _ cur k hnd.1,
              dictLookup_dictSet_self]
            simp [mergedVal, hv]
        | false =>
            rw [updateEntries_cons_leaf de k d0 v rest cur hd hv]
            rw [lookup_updateEntries_of_not_mem rest _ cur k hnd.1,
              dictLookup_dictSet_self]
            simp [mergedVal, hv]
      · simp only [dictLookup, if_neg hk] at hl
        cases hdk : dictLookup de k with
        | none =>
            rw [updateEntries_cons_none de k v rest cur hdk]
            exact lookup_updateEntries_found rest de cur k0 l0 d0 hnd.2 hl hd
        | some dv =>
            cases hv : isMap v with
            | true =>
                rw [updateEntries_cons_map de k dv v rest cur hdk hv]
                dsimp only
                exact lookup_updateEntries_found rest _ cur k0 l0 d0 hnd.2 hl
                  (by rw [dictLookup_dictSet_ne de k0 k _ hk]; exact hd)
            | false =>
                rw [updateEntries_cons_leaf de k dv v rest cur hdk hv]
                exact lookup_updateEntries_found rest _ cur k0 l0 d0 hnd.2 hl
                  (by rw [dictLookup_dictSet_ne de k0 k v hk]; exact hd)

theorem wfEntries_lookup : ∀ (le : YEntries) (k : String) (v : Yaml),
    wfEntries le = true → dictLookup le k = some v → wf v = true
  | .nil, k, v, _, hl => by simp [dictLookup] at hl
  | .cons k' v' rest, k, v, hw, hl => by
      simp only [wfEntries, Bool.and_eq_true] at hw
      by_cases hk : k' = k
      · simp only [dictLookup, if_pos hk, Option.some.injEq] at hl
        subst hl; exact hw.1
      · simp only [dictLookup, if_neg hk] at hl
        exact wfEntries_lookup rest k v hw.2 hl

theorem wf_treeGet : ∀ (p : List String) (t v : Yaml),
    wf t = true → treeGet t p = some v → wf v = true
  | [], t, v, hw, hg => by simp only [treeGet, Option.some.injEq] at hg; subst hg; exact hw
  | k :: p, t, v, hw, hg => by
      cases t with
      | map es =>
          simp only [treeGet] at hg
          cases hl : dictLookup es k with
          | none => rw [hl] at hg; exact Option.noConfusion hg
          | some w =>
              rw [hl] at hg
              have hwes : wfEntries es = true := by
                simp only [wf, Bool.and_eq_true] at hw; exact hw.2
              exact wf_treeGet p w v (wfEntries_lookup es k w hwes hl) hg
      | null => exact Option.noConfusion hg
      | str s => exact Option.noConfusion hg
      | float q => exact Option.noConfusion hg
      | int n => exact Option.noConfusion hg
      | seq xs => exact Option.noConfusion hg

theorem isMap_of_treeGet_cons (v : Yaml) (x : String) (xs : List String) (w : Yaml)
    (h : treeGet v (x :: xs) = some w) : isMap v = true := by
  cases v <;> first | rfl | exact Option.noConfusion h

theorem updateConfig_fst_nonpair : ∀ (d l : Yaml) (cur : List String),
    (isMap d && isMap l) = false → (updateConfig d l cur).1 = d := by
  intro d l cur h
  cases d <;> cases l <;> simp [isMap] at h <;> simp only [updateConfig] <;>
    (split <;> rfl)

mutual

theorem updateConfig_idem_fst (d l : Yaml) (cur cur2 : List String) (hw : wf l = true) :
    (updateConfig (updateConfig d l cur).1 l cur2).1 = (updateConfig d l cur).1 := by
  cases d with
  | map de =>
      cases l with
      | map le =>
          simp only [wf, Bool.and_eq_true] at hw
          rw [updateConfig_map_map de le cur]
          dsimp only
          rw [updateConfig_map_map _ le cur2]
          dsimp only
          rw [updateEntries_idem_fst le de cur cur2 hw.1 hw.2]
      | null =>
          rw [updateConfig_fst_nonpair _ _ cur (by rfl),
            updateConfig_fst_nonpair _ _ cur2 (by rfl)]
      | str s =>
          rw [updateConfig_fst_nonpair _ _ cur (by rfl),
            updateConfig_fst_nonpair _ _ cur2 (by rfl)]
      | float q =>
          rw [updateConfig_fst_nonpair _ _ cur (by rfl),
            updateConfig_fst_nonpair _ _ cur2 (by rfl)]
      | int n =>
          rw [updateConfig_fst_nonpair _ _ cur (by rfl),
            updateConfig_fst_nonpair _ _ cur2 (by rfl)]
      | seq xs =>
          rw [updateConfig_fst_nonpair _ _ cur (by rfl),
            updateConfig_fst_nonpair _ _ cur2 (by rfl)]
  | null =>
      rw [updateConfig_fst_nonpair _ _ cur (by rfl), updateConfig_fst_nonpair _ _ cur2 (by rfl)]
  | str s =>
      rw [updateConfig_fst_nonpair _ _ cur (by rfl), updateConfig_fst_nonpair _ _ cur2 (by rfl)]
  | float q =>
      rw [updateConfig_fst_nonpair _ _ cur (by rfl), updateConfig_fst_nonpair _ _ cur2 (by rfl)]
  | int n =>
      rw [updateConfig_fst_nonpair _ _ cur (by rfl), updateConfig_fst_nonpair _ _ cur2 (by rfl)]
  | seq xs =>
      rw [updateConfig_fst_nonpair _ _ cur (by rfl), updateConfig_fst_nonpair _ _ cur2 (by rfl)]

theorem updateEntries_idem_fst (le : YEntries) : ∀ (de : YEntries) (cur cur2 : List String),
    keysNodup le = true → wfEntries le = true →
    (updateEntries (updateEntries de le cur).1 le cur2).1 = (updateEntries de le cur).1 := by
  cases le with
  | nil => intro de cur cur2 _ _; rfl
  | cons k v rest =>
      intro de cur cur2 hnd hwf
      simp only [keysNodup, Bool.and_eq_true, Bool.not_eq_true'] at hnd
      simp only [wfEntries, Bool.and_eq_true] at hwf
      cases hdk : dictLookup de k with
      | none =>
          rw [updateEntries_cons_none de k v rest cur hdk]
          dsimp only
          rw [updateEntries_cons_none _ k v rest cur2
            (by rw [lookup_updateEntries_of_not_mem rest de cur k hnd.1]; exact hdk)]
          dsimp only
          rw [updateEntries_idem_fst rest de cur cur2 hnd.2 hwf.2]
      | some dv =>
          cases hv : isMap v with
          | true =>
              rw [updateEntries_cons_map de k dv v rest cur hdk hv]
              dsimp only
              have hlook :
                  dictLookup (updateEntries (dictSet de k (updateConfig dv v (cur ++ [k])).1)
                      rest cur).1 k
                    = some (updateConfig dv v (cur ++ [k])).1 := by
                rw [lookup_updateEntries_of_not_mem rest _ cur k hnd.1,
                  dictLookup_dictSet_self]
              rw [updateEntries_cons_map _ k (updateConfig dv v (cur ++ [k])).1 v rest cur2
                hlook hv]
              dsimp only
              rw [updateConfig_idem_fst dv v (cur ++ [k]) (cur2 ++ [k]) hwf.1]
              rw [dictSet_eq_self _ k (updateConfig dv v (cur ++ [k])).1 hlook]
              rw [updateEntries_idem_fst rest (dictSet de k (updateConfig dv v (cur ++ [k])).1)
                cur cur2 hnd.2 hwf.2]
          | false =>
              rw [updateEntries_cons_leaf de k dv v rest cur hdk hv]
              have hlook : dictLookup (updateEntries (dictSet de k v) rest cur).1 k = some v := by
                rw [lookup_updateEntries_of_not_mem rest _ cur k hnd.1, dictLookup_dictSet_self]
              rw [updateEntries_cons_leaf _ k v v rest cur2 hlook hv]
              rw [dictSet_eq_self _ k v hlook]
              rw [updateEntries_idem_fst rest (dictSet de k v) cur cur2 hnd.2 hwf.2]

end

theorem updateConfig_snd_nonpair : ∀ (d l : Yaml) (cur : List String),
    (isMap d && isMap l) = false →
    (updateConfig d l cur).2
      = (if kindOf d = kindOf l then ([], true)
         else ([MIssue.typeMismatch cur (pyType d) (pyType l)], false)) := by
  intro d l cur h
  cases d <;> cases l <;> simp [isMap] at h <;> simp only [updateConfig] <;>
    (split <;> rfl)

theorem updateConfig_clean_nonpair (d l : Yaml) (cur cur2 : List String)
    (h : (isMap d && isMap l) = false) (hv : (updateConfig d l cur).2.2 = true) :
    (updateConfig (updateConfig d l cur).1 l cur2).2 = ([], true) := by
  rw [updateConfig_snd_nonpair d l cur h] at hv
  split_ifs at hv with hkind
  rw [updateConfig_fst_nonpair d l cur h, updateConfig_snd_nonpair d l cur2 h,
    if_pos hkind]

mutual

theorem updateConfig_second_clean (d l : Yaml) (cur cur2 : List String) (hw : wf l = true)
    (hv : (updateConfig d l cur).2.2 = true) :
    (updateConfig (updateConfig d l cur).1 l cur2).2 = ([], true) := by
  cases d with
  | map de =>
      cases l with
      | map le =>
          simp only [wf, Bool.and_eq_true] at hw
          rw [updateConfig_map_map de le cur] at hv ⊢
          dsimp only at hv ⊢
          rw [updateConfig_map_map _ le cur2]
          dsimp only
          have hc := updateEntries_second_clean le de cur cur2 hw.1 hw.2 hv
          have h1 : (updateEntries (updateEntries de le cur).1 le cur2).2.1 = [] := by
            rw [hc]
          have h2 : (updateEntries (updateEntries de le cur).1 le cur2).2.2 = true := by
            rw [hc]
          rw [h1, h2]
      | null => exact updateConfig_clean_nonpair _ _ cur cur2 (by rfl) hv
      | str s => exact updateConfig_clean_nonpair _ _ cur cur2 (by rfl) hv
      | float q => exact updateConfig_clean_nonpair _ _ cur cur2 (by rfl) hv
      | int n => exact updateConfig_clean_nonpair _ _ cur cur2 (by rfl) hv
      | seq xs => exact updateConfig_clean_nonpair _ _ cur cur2 (by rfl) hv
  | null => exact updateConfig_clean_nonpair _ _ cur cur2 (by rfl) hv
  | str s => exact updateConfig_clean_nonpair _ _ cur cur2 (by rfl) hv
  | float q => exact updateConfig_clean_nonpair _ _ cur cur2 (by rfl) hv
  | int n => exact updateConfig_clean_nonpair _ _ cur cur2 (by rfl) hv
  | seq xs => exact updateConfig_clean_nonpair _ _ cur cur2 (by rfl) hv

theorem updateEntries_second_clean (le : YEntries) : ∀ (de : YEntries) (cur cur2 : List String),
    keysNodup le = true → wfEntries le = true →
    (updateEntries de le cur).2.2 = true →
    (updateEntries (updateEntries de le cur).1 le cur2).2 = ([], true) := by
  cases le with
  | nil => intro de cur cur2 _ _ _; rfl
  | cons k v rest =>
      intro de cur cur2 hnd hwf hv
      simp only [keysNodup, Bool.and_eq_true, Bool.not_eq_true'] at hnd
      simp only [wfEntries, Bool.and_eq_true] at hwf
      cases hdk : dictLookup de k with
      | none =>
          rw [updateEntries_cons_none de k v rest cur hdk] at hv
          exact Bool.noConfusion hv
      | some dv =>
          cases hmv : isMap v with
          | true =>
              rw [updateEntries_cons_map de k dv v rest cur hdk hmv] at hv ⊢
              dsimp only at hv ⊢
              rw [Bool.and_eq_true] at hv
              have hlook :
                  dictLookup (updateEntries (dictSet de k (updateConfig dv v (cur ++ [k])).1)
                      rest cur).1 k
                    = some (updateConfig dv v (cur ++ [k])).1 := by
                rw [lookup_updateEntries_of_not_mem rest _ cur k hnd.1,
                  dictLookup_dictSet_self]
              rw [updateEntries_cons_map _ k (updateConfig dv v (cur ++ [k])).1 v rest cur2
                hlook hmv]
              dsimp only
              have hsub := updateConfig_second_clean dv v (cur ++ [k]) (cur2 ++ [k]) hwf.1 hv.1
              have hfst := updateConfig_idem_fst dv v (cur ++ [k]) (cur2 ++ [k]) hwf.1
              rw [hfst, dictSet_eq_self _ k (updateConfig dv v (cur ++ [k])).1 hlook]
              have hrest := updateEntries_second_clean rest
                (dictSet de k (updateConfig dv v (cur ++ [k])).1) cur cur2 hnd.2 hwf.2 hv.2
              have h1 : (updateConfig (updateConfig dv v (cur ++ [k])).1 v (cur2 ++ [k])).2.1
                  = [] := by rw [hsub]
              have h2 : (updateConfig (updateConfig dv v (cur ++ [k])).1 v (cur2 ++ [k])).2.2
                  = true := by rw [hsub]
              have h3 : (updateEntries
                  (updateEntries (dictSet de k (updateConfig dv v (cur ++ [k])).1) rest cur).1
                  rest cur2).2.1 = [] := by rw [hrest]
              have h4 : (updateEntries
                  (updateEntries (dictSet de k (updateConfig dv v (cur ++ [k])).1) rest cur).1
                  rest cur2).2.2 = true := by rw [hrest]
              rw [h1, h2, h3, h4]
              rfl
          | false =>
              rw [updateEntries_cons_leaf de k dv v rest cur hdk hmv] at hv ⊢
              have hlook : dictLookup (updateEntries (dictSet de k v) rest cur).1 k
                  = some v := by
                rw [lookup_updateEntries_of_not_mem rest _ cur k hnd.1, dictLookup_dictSet_self]
              rw [updateEntries_cons_leaf _ k v v rest cur2 hlook hmv]
              rw [dictSet_eq_self _ k v hlook]
              exact updateEntries_second_clean rest (dictSet de k v) cur cur2 hnd.2 hwf.2 hv

end

/-- C10 amended: for Python-dict trees (pairwise-distinct keys at every
mapping), merging the local tree a second time into the result of the first
merge always yields a tree identical to the first merge's result; and the
second pass collects zero issues exactly when the first merge reported no
issues (was valid) — when the first merge was invalid, the second pass
re-collects its issues rather than collecting zero. -/
theorem c10_amended (d l : Yaml) (hw : wf l = true) :
    (updateConfig (updateConfig d l []).1 l []).1 = (updateConfig d l []).1
    ∧ ((updateConfig d l []).2.2 = true →
        (updateConfig (updateConfig d l []).1 l []).2 = ([], true)) :=
  ⟨updateConfig_idem_fst d l [] [] hw,
   fun hv => updateConfig_second_clean d l [] [] hw hv⟩

/-- Witness for C10's amended theorem at concrete trees. -/
theorem c10_witness :
    (updateConfig
        (updateConfig (.map (.cons "a" (.int 1) (.cons "b" (.map (.cons "c" (.int 2) .nil)) .nil)))
          (.map (.cons "a" (.int 3) (.cons "b" (.map (.cons "c" (.int 4) .nil)) .nil))) []).1
        (.map (.cons "a" (.int 3) (.cons "b" (.map (.cons "c" (.int 4) .nil)) .nil))) []).1
      = (updateConfig (.map (.cons "a" (.int 1) (.cons "b" (.map (.cons "c" (.int 2) .nil)) .nil)))
          (.map (.cons "a" (.int 3) (.cons "b" (.map (.cons "c" (.int 4) .nil)) .nil))) []).1
    ∧ (updateConfig
        (updateConfig (.map (.cons "a" (.int 1) (.cons "b" (.map (.cons "c" (.int 2) .nil)) .nil)))
          (.map (.cons "a" (.int 3) (.cons "b" (.map (.cons "c" (.int 4) .nil)) .nil))) []).1
        (.map (.cons "a" (.int 3) (.cons "b" (.map (.cons "c" (.int 4) .nil)) .nil))) []).2
      = ([], true) :=
  ⟨(c10_amended (.map (.cons "a" (.int 1) (.cons "b" (.map (.cons "c" (.int 2) .nil)) .nil)))
      (.map (.cons "a" (.int 3) (.cons "b" (.map (.cons "c" (.int 4) .nil)) .nil))) rfl).1,
   (c10_amended (.map (.cons "a" (.int 1) (.cons "b" (.map (.cons "c" (.int 2) .nil)) .nil)))
      (.map (.cons "a" (.int 3) (.cons "b" (.map (.cons "c" (.int 4) .nil)) .nil))) rfl).2 rfl⟩

theorem isMap_of_omittedIn_cons (v : Yaml) (x : String) (xs : List String)
    (h : omittedIn v (x :: xs) = true) : isMap v = true := by
  cases v <;> first | rfl | exact Bool.noConfusion h

theorem treeGet_update_omitted : ∀ (p : List String) (d l : Yaml) (cur : List String)
    (v : Yaml), wf l = true → treeGet d p = some v → omittedIn l p = true →
    treeGet (updateConfig d l cur).1 p = some v
  | [], _, l, _, _, _, _, ho => Bool.noConfusion ho
  | k0 :: p', d, l, cur, v, hw, hget, ho => by
      cases l with
      | map le =>
          simp only [wf, Bool.and_eq_true] at hw
          cases d with
          | map de =>
              simp only [treeGet] at hget
              cases hdl : dictLookup de k0 with
              | none => rw [hdl] at hget; exact Option.noConfusion hget
              | some d1 =>
                  rw [hdl] at hget
                  rw [updateConfig_map_map de le cur]
                  dsimp only
                  simp only [treeGet]
                  simp only [omittedIn] at ho
                  cases hlk : dictLookup le k0 with
                  | none =>
                      rw [lookup_updateEntries_of_not_mem le de cur k0
                        (by rw [keyMem_eq_isSome_lookup, hlk]; rfl), hdl]
                      exact hget
                  | some l1 =>
                      rw [hlk] at ho
                      cases p' with
                      | nil => exact Bool.noConfusion ho
                      | cons x xs =>
                          have hml1 : isMap l1 = true := isMap_of_omittedIn_cons l1 x xs ho
                          rw [lookup_updateEntries_found le de cur k0 l1 d1 hw.1 hlk hdl]
                          simp only [mergedVal, hml1, if_true]
                          exact treeGet_update_omitted (x :: xs) d1 l1 (cur ++ [k0]) v
                            (wfEntries_lookup le k0 l1 hw.2 hlk) hget ho
          | null => exact Option.noConfusion hget
          | str s => exact Option.noConfusion hget
          | float q => exact Option.noConfusion hget
          | int n => exact Option.noConfusion hget
          | seq xs => exact Option.noConfusion hget
      | null => exact Bool.noConfusion ho
      | str s => exact Bool.noConfusion ho
      | float q => exact Bool.noConfusion ho
      | int n => exact Bool.noConfusion ho
      | seq xs => exact Bool.noConfusion ho

theorem treeGet_update_leaf : ∀ (p : List String) (d l : Yaml) (cur : List String)
    (w : Yaml), wf l = true → (treeGet d p).isSome = true → treeGet l p = some w →
    isMap w = false → p ≠ [] → treeGet (updateConfig d l cur).1 p = some w
  | [], _, _, _, _, _, _, _, _, hne => absurd rfl hne
  | k0 :: p', d, l, cur, w, hw, hds, hl, hm, _ => by
      cases l with
      | map le =>
          simp only [wf, Bool.and_eq_true] at hw
          cases d with
          | map de =>
              simp only [treeGet] at hds hl
              cases hdl : dictLookup de k0 with
              | none => rw [hdl] at hds; exact Bool.noConfusion hds
              | some d1 =>
                  rw [hdl] at hds
                  cases hlk : dictLookup le k0 with
                  | none => rw [hlk] at hl; exact Option.noConfusion hl
                  | some l1 =>
                      rw [hlk] at hl
                      rw [updateConfig_map_map de le cur]
                      dsimp only
                      simp only [treeGet]
                      rw [lookup_updateEntries_found le de cur k0 l1 d1 hw.1 hlk hdl]
                      cases p' with
                      | nil =>
                          simp only [treeGet, Option.some.injEq] at hl
                          subst hl
                          simp only [mergedVal, hm, Bool.false_eq_true, if_false]
                          rfl
                      | cons x xs =>
                          have hml1 : isMap l1 = true := isMap_of_treeGet_cons l1 x xs w hl
                          simp only [mergedVal, hml1, if_true]
                          exact treeGet_update_leaf (x :: xs) d1 l1 (cur ++ [k0]) w
                            (wfEntries_lookup le k0 l1 hw.2 hlk) hds hl hm (by simp)
          | null => exact Bool.noConfusion hds
          | str s => exact Bool.noConfusion hds
          | float q => exact Bool.noConfusion hds
          | int n => exact Bool.noConfusion hds
          | seq xs => exact Bool.noConfusion hds
      | null => exact Option.noConfusion hl
      | str s => exact Option.noConfusion hl
      | float q => exact Option.noConfusion hl
      | int n => exact Option.noConfusion hl
      | seq xs => exact Option.noConfusion hl

/-- C4 amended: after merging a local tree into a default tree (with
Python-dict key uniqueness in the local tree): (1) every key path present in
the default tree that the local tree omits — walking it through the local
tree meets mappings until some key of the path is absent — keeps its
original default value unchanged; and (2) every key path present in both
trees whose local value is a non-mapping leaf ends up with exactly the local
value.  (The original claim's unrestricted "present only in the default
mapping at any depth" fails when the local tree cuts the path off with a
non-mapping leaf, in which case the default subtree below it is discarded.) -/
theorem c4_amended (d l : Yaml) (p : List String) (hw : wf l = true) :
    (∀ v, treeGet d p = some v → omittedIn l p = true →
        treeGet (updateConfig d l []).1 p = some v)
    ∧ (∀ w, (treeGet d p).isSome = true → treeGet l p = some w → isMap w = false →
        p ≠ [] → treeGet (updateConfig d l []).1 p = some w) :=
  ⟨fun v hv ho => treeGet_update_omitted p d l [] v hw hv ho,
   fun w hd hl hm hne => treeGet_update_leaf p d l [] w hw hd hl hm hne⟩

/-- Witness for C4's amended theorem: default `{a: {b: 1, c: 2}}`, local
`{a: {b: 9}}` — the default-only key `a.c` keeps `2`, the shared leaf `a.b`
takes the local `9`. -/
theorem c4_witness :
    treeGet (updateConfig
        (.map (.cons "a" (.map (.cons "b" (.int 1) (.cons "c" (.int 2) .nil))) .nil))
        (.map (.cons "a" (.map (.cons "b" (.int 9) .nil)) .nil)) []).1 ["a", "c"]
      = some (.int 2)
    ∧ treeGet (updateConfig
        (.map (.cons "a" (.map (.cons "b" (.int 1) (.cons "c" (.int 2) .nil))) .nil))
        (.map (.cons "a" (.map (.cons "b" (.int 9) .nil)) .nil)) []).1 ["a", "b"]
      = some (.int 9) :=
  ⟨(c4_amended
      (.map (.cons "a" (.map (.cons "b" (.int 1) (.cons "c" (.int 2) .nil))) .nil))
      (.map (.cons "a" (.map (.cons "b" (.int 9) .nil)) .nil)) ["a", "c"] rfl).1
      (.int 2) rfl rfl,
   (c4_amended
      (.map (.cons "a" (.map (.cons "b" (.int 1) (.cons "c" (.int 2) .nil))) .nil))
      (.map (.cons "a" (.map (.cons "b" (.int 9) .nil)) .nil)) ["a", "b"] rfl).2
      (.int 9) rfl rfl rfl (by simp)⟩

theorem keyMem_self (k : String) (v : Yaml) (rest : YEntries) :
    keyMem k (.cons k v rest) = true := by simp [keyMem]

theorem keyMem_cons_of_mem (k k' : String) (v : Yaml) (rest : YEntries)
    (h : keyMem k' rest = true) : keyMem k' (.cons k v rest) = true := by
  simp only [keyMem]
  split <;> simp_all

theorem issues_nonpair (d l : Yaml) (cur : List String)
    (h : (isMap d && isMap l) = false) :
    ∀ e ∈ (updateConfig d l cur).2.1, e = .typeMismatch cur (pyType d) (pyType l) := by
  intro e he
  have hs : (updateConfig d l cur).2.1
      = (if kindOf d = kindOf l then (([] : List MIssue), true)
         else ([MIssue.typeMismatch cur (pyType d) (pyType l)], false)).1 := by
    rw [updateConfig_snd_nonpair d l cur h]
  rw [hs] at he
  split at he
  · exact absurd he (List.not_mem_nil e)
  · rw [List.mem_singleton] at he
    exact he

mutual

theorem issues_char (d l : Yaml) (cur : List String) :
    ∀ e ∈ (updateConfig d l cur).2.1, ∃ q, MIssue.path e = cur ++ q := by
  intro e he
  cases d with
  | map de =>
      cases l with
      | map le =>
          rw [updateConfig_map_map de le cur] at he
          dsimp only at he
          rcases issues_char_entries de le cur e he with ⟨k', _, h⟩ | ⟨k', q, _, h⟩


          · exact ⟨[], by rw [h]; simp [MIssue.path]⟩
          · exact ⟨k' :: q, h⟩
      | null => rw [issues_nonpair _ _ cur (by rfl) e he]; exact ⟨[], by simp [MIssue.path]⟩
      | str s => rw [issues_nonpair _ _ cur (by rfl) e he]; exact ⟨[], by simp [MIssue.path]⟩
      | float q => rw [issues_nonpair _ _ cur (by rfl) e he]; exact ⟨[], by simp [MIssue.path]⟩
      | int n => rw [issues_nonpair _ _ cur (by rfl) e he]; exact ⟨[], by simp [MIssue.path]⟩
      | seq xs => rw [issues_nonpair _ _ cur (by rfl) e he]; exact ⟨[], by simp [MIssue.path]⟩
  | null => rw [issues_nonpair _ _ cur (by cases l <;> rfl) e he]; exact ⟨[], by simp [MIssue.path]⟩
  | str s => rw [issues_nonpair _ _ cur (by cases l <;> rfl) e he]; exact ⟨[], by simp [MIssue.path]⟩
  | float q => rw [issues_nonpair _ _ cur (by cases l <;> rfl) e he]; exact ⟨[], by simp [MIssue.path]⟩
  | int n => rw [issues_nonpair _ _ cur (by cases l <;> rfl) e he]; exact ⟨[], by simp [MIssue.path]⟩
  | seq xs => rw [issues_nonpair _ _ cur (by cases l <;> rfl) e he]; exact ⟨[], by simp [MIssue.path]⟩

theorem issues_char_entries (de le : YEntries) (cur : List String) :
    ∀ e ∈ (updateEntries de le cur).2.1,
      (∃ k', keyMem k' le = true ∧ e = .noKey cur k')
      ∨ (∃ k' q, keyMem k' le = true ∧ MIssue.path e = cur ++ k' :: q) := by
  cases le with
  | nil => intro e he; exact absurd he (List.not_mem_nil e)
  | cons k v rest =>
      intro e he
      cases hdk : dictLookup de k with
      | none =>
          rw [updateEntries_cons_none de k v rest cur hdk] at he
          dsimp only at he
          rw [List.mem_cons] at he
          rcases he with he | he
          · exact Or.inl ⟨k, keyMem_self k v rest, he⟩
          · rcases issues_char_entries de rest cur e he with ⟨k', hm, h⟩ | ⟨k', q, hm, h⟩
            · exact Or.inl ⟨k', keyMem_cons_of_mem k k' v rest hm, h⟩
            · exact Or.inr ⟨k', q, keyMem_cons_of_mem k k' v rest hm, h⟩
      | some dv =>
          cases hv : isMap v with
          | true =>
              rw [updateEntries_cons_map de k dv v rest cur hdk hv] at he
              dsimp only at he
              rw [List.mem_append] at he
              rcases he with he | he
              · rcases issues_char dv v (cur ++ [k]) e he with ⟨q, h⟩
                refine Or.inr ⟨k, q, keyMem_self k v rest, ?_⟩
                rw [h]
                simp
              · rcases issues_char_entries (dictSet de k (updateConfig dv v (cur ++ [k])).1)
                    rest cur e he with ⟨k', hm, h⟩ | ⟨k', q, hm, h⟩
                · exact Or.inl ⟨k', keyMem_cons_of_mem k k' v rest hm, h⟩
                · exact Or.inr ⟨k', q, keyMem_cons_of_mem k k' v rest hm, h⟩
          | false =>
              rw [updateEntries_cons_leaf de k dv v rest cur hdk hv] at he
              rcases issues_char_entries (dictSet de k v) rest cur e he with
                ⟨k', hm, h⟩ | ⟨k', q, hm, h⟩
              · exact Or.inl ⟨k', keyMem_cons_of_mem k k' v rest hm, h⟩
              · exact Or.inr ⟨k', q, keyMem_cons_of_mem k k' v rest hm, h⟩

end

theorem count_noKey_zero_of_not_mem (le de : YEntries) (cur : List String) (k : String)
    (h : keyMem k le = false) :
    (updateEntries de le cur).2.1.count (.noKey cur k) = 0 := by
  rw [List.count_eq_zero]
  intro hmem
  rcases issues_char_entries de le cur _ hmem with ⟨k', hm, he⟩ | ⟨k', q, hm, he⟩
  · simp only [MIssue.noKey.injEq] at he
    rw [← he.2, h] at hm
    exact Bool.noConfusion hm
  · simp only [MIssue.path] at he
    have hlen := congrArg List.length he
    simp at hlen

theorem count_zero_deeper (le de : YEntries) (cur : List String) (tgt : MIssue)
    (k0 : String) (q0 : List String) (hp : tgt.path = cur ++ k0 :: q0)
    (h : keyMem k0 le = false) :
    (updateEntries de le cur).2.1.count tgt = 0 := by
  rw [List.count_eq_zero]
  intro hmem
  rcases issues_char_entries de le cur tgt hmem with ⟨k', hm, he⟩ | ⟨k', q, hm, he⟩
  · rw [he] at hp
    simp only [MIssue.path] at hp
    have hlen := congrArg List.length hp
    simp at hlen
  · rw [hp] at he
    have h2 := List.append_cancel_left he
    rw [List.cons.injEq] at h2
    rw [← h2.1, h] at hm
    exact Bool.noConfusion hm

theorem lookup_updateEntries_none : ∀ (le de : YEntries) (cur : List String) (k : String),
    dictLookup de k = none → dictLookup (updateEntries de le cur).1 k = none
  | .nil, _, _, _, h => h
  | .cons k' v rest, de, cur, k, h => by
      cases hdk : dictLookup de k' with
      | none =>
          rw [updateEntries_cons_none de k' v rest cur hdk]
          exact lookup_updateEntries_none rest de cur k h
      | some dv =>
          have hk : k' ≠ k := by
            intro hcontra; subst hcontra; rw [h] at hdk; exact Option.noConfusion hdk
          cases hv : isMap v with
          | true =>
              rw [updateEntries_cons_map de k' dv v rest cur hdk hv]
              dsimp only
              exact lookup_updateEntries_none rest _ cur k
                (by rw [dictLookup_dictSet_ne de k k' _ hk]; exact h)
          | false =>
              rw [updateEntries_cons_leaf de k' dv v rest cur hdk hv]
              exact lookup_updateEntries_none rest _ cur k
                (by rw [dictLookup_dictSet_ne de k k' v hk]; exact h)

theorem count_noKey_base : ∀ (le de : YEntries) (cur : List String) (k : String),
    keysNodup le = true → keyMem k le = true → dictLookup de k = none →
    (updateEntries de le cur).2.1.count (.noKey cur k) = 1
  | .nil, _, _, k, _, hm, _ => by simp [keyMem] at hm
  | .cons k' v rest, de, cur, k, hnd, hm, hl => by
      simp only [keysNodup, Bool.and_eq_true, Bool.not_eq_true'] at hnd
      by_cases hk : k' = k
      · subst hk
        rw [updateEntries_cons_none de k' v rest cur hl]
        dsimp only
        rw [List.count_cons, count_noKey_zero_of_not_mem rest de cur k' hnd.1]
        simp
      · have hm' : keyMem k rest = true := by
          simp only [keyMem, if_neg hk] at hm
          exact hm
        cases hdk : dictLookup de k' with
        | none =>
            rw [updateEntries_cons_none de k' v rest cur hdk]
            dsimp only
            have hne : (MIssue.noKey cur k) ≠ (MIssue.noKey cur k') := by
              intro hcontra
              simp only [MIssue.noKey.injEq] at hcontra
              exact hk hcontra.2.symm
            rw [List.count_cons, count_noKey_base rest de cur k hnd.2 hm' hl]
            simp [hne, hk]
        | some dv =>
            cases hv : isMap v with
            | true =>
                rw [updateEntries_cons_map de k' dv v rest cur hdk hv]
                dsimp only
                rw [List.count_append]
                have hzero : (updateConfig dv v (cur ++ [k'])).2.1.count (.noKey cur k)
                    = 0 := by
                  rw [List.count_eq_zero]
                  intro hmem
                  rcases issues_char dv v (cur ++ [k']) _ hmem with ⟨q, hq⟩
                  simp only [MIssue.path] at hq
                  have hlen := congrArg List.length hq
                  simp at hlen
                rw [hzero, count_noKey_base rest _ cur k hnd.2 hm'
                  (by rw [dictLookup_dictSet_ne de k k' _ hk]; exact hl)]
            | false =>
                rw [updateEntries_cons_leaf de k' dv v rest cur hdk hv]
                exact count_noKey_base rest _ cur k hnd.2 hm'
                  (by rw [dictLookup_dictSet_ne de k k' v hk]; exact hl)

theorem count_pass_through : ∀ (le de : YEntries) (cur : List String) (k0 : String)
    (l0 d0 : Yaml) (tgt : MIssue) (q0 : List String),
    keysNodup le = true → dictLookup le k0 = some l0 → dictLookup de k0 = some d0 →
    isMap l0 = true → tgt.path = cur ++ k0 :: q0 →
    (updateConfig d0 l0 (cur ++ [k0])).2.1.count tgt = 1 →
    (updateEntries de le cur).2.1.count tgt = 1
  | .nil, _, _, k0, _, _, _, _, _, hl, _, _, _, _ => by simp [dictLookup] at hl
  | .cons k v rest, de, cur, k0, l0, d0, tgt, q0, hnd, hl, hd, hml, hp, hcnt => by
      simp only [keysNodup, Bool.and_eq_true, Bool.not_eq_true'] at hnd
      by_cases hk : k = k0
      · subst hk
        simp only [dictLookup, if_true, eq_self_iff_true, Option.some.injEq] at hl
        subst hl
        rw [updateEntries_cons_map de k d0 v rest cur hd hml]
        dsimp only
        rw [List.count_append, hcnt, count_zero_deeper rest _ cur tgt k q0 hp hnd.1]
      · have hl' : dictLookup rest k0 = some l0 := by
          simp only [dictLookup, if_neg hk] at hl
          exact hl
        cases hdk : dictLookup de k with
        | none =>
            rw [updateEntries_cons_none de k v rest cur hdk]
            dsimp only
            have hne : tgt ≠ .noKey cur k := by
              intro hcontra
              rw [hcontra] at hp
              simp only [MIssue.path] at hp
              have hlen := congrArg List.length hp
              simp at hlen
            rw [List.count_cons,
              count_pass_through rest de cur k0 l0 d0 tgt q0 hnd.2 hl' hd hml hp hcnt]
            simp [Ne.symm hne]
        | some dv =>
            cases hv : isMap v with
            | true =>
                rw [updateEntries_cons_map de k dv v rest cur hdk hv]
                dsimp only
                rw [List.count_append]
                have hzero : (updateConfig dv v (cur ++ [k])).2.1.count tgt = 0 := by
                  rw [List.count_eq_zero]
                  intro hmem
                  rcases issues_char dv v (cur ++ [k]) tgt hmem with ⟨q, hq⟩
                  rw [hp, List.append_assoc] at hq
                  have h2 := List.append_cancel_left hq
                  rw [List.singleton_append, List.cons.injEq] at h2
                  exact hk h2.1.symm
                rw [hzero, count_pass_through rest _ cur k0 l0 d0 tgt q0 hnd.2 hl'
                  (by rw [dictLookup_dictSet_ne de k0 k _ hk]; exact hd) hml hp hcnt]
            | false =>
                rw [updateEntries_cons_leaf de k dv v rest cur hdk hv]
                exact count_pass_through rest _ cur k0 l0 d0 tgt q0 hnd.2 hl'
                  (by rw [dictLookup_dictSet_ne de k0 k v hk]; exact hd) hml hp hcnt

theorem c5_main : ∀ (p : List String) (d l : Yaml) (cur : List String)
    (dm lm : YEntries) (k : String),
    wf l = true → treeGet d p = some (.map dm) → treeGet l p = some (.map lm) →
    keyMem k lm = true → dictLookup dm k = none →
    ((updateConfig d l cur).2.1.count (.noKey (cur ++ p) k) = 1)
    ∧ treeGet (updateConfig d l cur).1 (p ++ [k]) = none
  | [], d, l, cur, dm, lm, k, hw, hd, hl, hkm, hkd => by
      simp only [treeGet, Option.some.injEq] at hd hl
      subst hd; subst hl
      simp only [wf, Bool.and_eq_true] at hw
      rw [updateConfig_map_map dm lm cur]
      dsimp only
      constructor
      · rw [List.append_nil]
        exact count_noKey_base lm dm cur k hw.1 hkm hkd
      · simp only [List.nil_append, treeGet]
        rw [lookup_updateEntries_none lm dm cur k hkd]
  | k0 :: p', d, l, cur, dm, lm, k, hw, hd, hl, hkm, hkd => by
      cases d with
      | map de =>
          cases l with
          | map le =>
              simp only [wf, Bool.and_eq_true] at hw
              simp only [treeGet] at hd hl
              cases hdl : dictLookup de k0 with
              | none => rw [hdl] at hd; exact Option.noConfusion hd
              | some d1 =>
                  rw [hdl] at hd
                  cases hlk : dictLookup le k0 with
                  | none => rw [hlk] at hl; exact Option.noConfusion hl
                  | some l1 =>
                      rw [hlk] at hl
                      have hwl1 : wf l1 = true := wfEntries_lookup le k0 l1 hw.2 hlk
                      have hml1 : isMap l1 = true := by
                        cases p' with
                        | nil =>
                            simp only [treeGet, Option.some.injEq] at hl
                            subst hl
                            rfl
                        | cons x xs => exact isMap_of_treeGet_cons l1 x xs _ hl
                      have IH := c5_main p' d1 l1 (cur ++ [k0]) dm lm k hwl1 hd hl hkm hkd
                      rw [updateConfig_map_map de le cur]
                      dsimp only
                      constructor
                      · rw [show cur ++ k0 :: p' = (cur ++ [k0]) ++ p' by simp]
                        exact count_pass_through le de cur k0 l1 d1
                          (.noKey ((cur ++ [k0]) ++ p') k) p' hw.1 hlk hdl hml1
                          (by simp [MIssue.path]) IH.1
                      · simp only [List.cons_append, treeGet]
                        rw [lookup_updateEntries_found le de cur k0 l1 d1 hw.1 hlk hdl]
                        simp only [mergedVal, hml1, if_true]
                        exact IH.2
          | null => exact Option.noConfusion hl
          | str s => exact Option.noConfusion hl
          | float q => exact Option.noConfusion hl
          | int n => exact Option.noConfusion hl
          | seq xs => exact Option.noConfusion hl
      | null => exact Option.noConfusion hd
      | str s => exact Option.noConfusion hd
      | float q => exact Option.noConfusion hd
      | int n => exact Option.noConfusion hd
      | seq xs => exact Option.noConfusion hd

/-- C5 confirmed: for every key `k` present in a local mapping (at tree path
`p`) but absent from the corresponding default mapping, one merge pass
records exactly one `No key` issue for that occurrence, does not add the key
to the default tree, and returns an overall validity of false.  The claim
holds for every such key — the statement is universally quantified over the
path and key, so validation does not stop at the first unknown key.
(Requires the local tree's mappings to have pairwise-distinct keys, as
Python dicts do.) -/
theorem c5_confirmed (d l : Yaml) (p : List String) (dm lm : YEntries) (k : String)
    (hw : wf l = true) (hd : treeGet d p = some (.map dm))
    (hl : treeGet l p = some (.map lm))
    (hkm : keyMem k lm = true) (hkd : dictLookup dm k = none) :
    ((updateConfig d l []).2.1.count (.noKey p k) = 1)
    ∧ treeGet (updateConfig d l []).1 (p ++ [k]) = none
    ∧ (updateConfig d l []).2.2 = false := by
  have h := c5_main p d l [] dm lm k hw hd hl hkm hkd
  rw [List.nil_append] at h
  refine ⟨h.1, h.2, ?_⟩
  cases hvv : (updateConfig d l []).2.2 with
  | false => rfl
  | true =>
      have h0 := valid_no_issues d l [] hvv
      rw [h0] at h
      simp at h

/-- Witness for C5: the spec's own scenario — default
`{feature: {threshold: 5}}`, local `{feature: {thresholdx: 9}}`. -/
theorem c5_witness :
    ((updateConfig
        (.map (.cons "feature" (.map (.cons "threshold" (.int 5) .nil)) .nil))
        (.map (.cons "feature" (.map (.cons "thresholdx" (.int 9) .nil)) .nil)) []).2.1.count
        (.noKey ["feature"] "thresholdx") = 1)
    ∧ treeGet (updateConfig
        (.map (.cons "feature" (.map (.cons "threshold" (.int 5) .nil)) .nil))
        (.map (.cons "feature" (.map (.cons "thresholdx" (.int 9) .nil)) .nil)) []).1
        (["feature"] ++ ["thresholdx"]) = none
    ∧ (updateConfig
        (.map (.cons "feature" (.map (.cons "threshold" (.int 5) .nil)) .nil))
        (.map (.cons "feature" (.map (.cons "thresholdx" (.int 9) .nil)) .nil)) []).2.2
      = false :=
  c5_confirmed
    (.map (.cons "feature" (.map (.cons "threshold" (.int 5) .nil)) .nil))
    (.map (.cons "feature" (.map (.cons "thresholdx" (.int 9) .nil)) .nil))
    ["feature"] (.cons "threshold" (.int 5) .nil) (.cons "thresholdx" (.int 9) .nil)
    "thresholdx" rfl rfl rfl rfl rfl

end EasyConfig
